import Mathlib

/-!
Verification of the FinSight RAG backend's chunking and retrieval pipeline
(`backend/main.py`), as a shallow embedding in Lean.

Modelling conventions: Python floating point numbers are modelled by the real
numbers; Python strings by `String`; external services (the embedding provider
and the datastore) are parameters.  Fallible external calls return `Option`.
Definitions carry the line numbers of the source code they embed.
-/

namespace FinSight

/-- Characters Python's `str.split()` treats as whitespace (ASCII range). -/
def pyIsSpace (c : Char) : Bool :=
  c = ' ' || c = '\t' || c = '\n' || c = '\r' || c = '\x0b' || c = '\x0c'

/-- Helper for `splitWords`: scan the characters, `cur` holds the current word
reversed. -/
def splitAux : List Char → List Char → List String
  | [], cur => if cur = [] then [] else [String.mk cur.reverse]
  | c :: rest, cur =>
    if pyIsSpace c then
      if cur = [] then splitAux rest [] else String.mk cur.reverse :: splitAux rest []
    else splitAux rest (c :: cur)

/-- Python `text.split()`: whitespace-delimited words, no empty strings. -/
def splitWords (s : String) : List String := splitAux s.data []

/-- Sum of `len(w) + 1` over a word list: the value the source keeps in
`current_length` (`+1 for space`, main.py line 79). -/
def sumLen1 : List String → ℕ
  | [] => 0
  | w :: ws => w.length + 1 + sumLen1 ws

/-- Python `" ".join(words)`. -/
def joinWords : List String → String
  | [] => ""
  | [w] => w
  | w :: ws => w ++ " " ++ joinWords ws

/-- The backward overlap walk of `chunk_text` (main.py lines 88-96): words are
taken from the reversed closed chunk while the accumulated length stays within
`overlap`, each inserted at the front of the accumulator. -/
def overlapAux (overlap : ℕ) : List String → List String → ℕ → List String
  | [], overlap_words, _ => overlap_words
  | w :: rest, overlap_words, overlap_length =>
    if overlap_length + w.length + 1 ≤ overlap then
      overlapAux overlap rest (w :: overlap_words) (overlap_length + w.length + 1)
    else overlap_words

/-- The overlap seed for the next chunk: trailing whole words of the closed
chunk worth at most `overlap` characters. -/
def overlapTail (overlap : ℕ) (current_chunk : List String) : List String :=
  overlapAux overlap current_chunk.reverse [] 0

/-- The word-accumulation loop of `chunk_text` (main.py lines 74-109), at the
level of word lists: each closed `current_chunk` is emitted as its word list
(the source joins the words with spaces at emission time, see `chunk_text`
below).  On closing, the next chunk is seeded with the overlap tail followed by
the triggering word, and `current_length` is recomputed as the sum of
`len(w) + 1` over the new chunk, exactly as in the source (line 98). -/
def chunkWordsAux (chunk_size overlap : ℕ) :
    List String → List String → ℕ → List (List String)
  | [], current_chunk, _ => if current_chunk = [] then [] else [current_chunk]
  | word :: rest, current_chunk, current_length =>
    if current_length + (word.length + 1) > chunk_size ∧ current_chunk ≠ [] then
      current_chunk ::
        chunkWordsAux chunk_size overlap rest
          (overlapTail overlap current_chunk ++ [word])
          (sumLen1 (overlapTail overlap current_chunk ++ [word]))
    else
      chunkWordsAux chunk_size overlap rest (current_chunk ++ [word])
        (current_length + (word.length + 1))

/-- The word lists of the chunks of one text. -/
def wordChunks (text : String) (chunk_size overlap : ℕ) : List (List String) :=
  chunkWordsAux chunk_size overlap (splitWords text) [] 0

/-- A chunk as returned by `chunk_text`: content and approximate token count
(`len(chunk_text) // 4`, main.py line 85). -/
structure TChunk where
  content : String
  token_count : ℕ
  deriving DecidableEq

/-- Joining a closed chunk's words into the emitted record (main.py lines
82-86). -/
def mkChunk (ws : List String) : TChunk :=
  ⟨joinWords ws, (joinWords ws).length / 4⟩

/-- `chunk_text(text, chunk_size, overlap)` (main.py lines 62-111).  The
`if not text` guard returns `[]` for the empty string. -/
def chunk_text (text : String) (chunk_size overlap : ℕ) : List TChunk :=
  if text = "" then []
  else (wordChunks text chunk_size overlap).map mkChunk

/-- A page-attributed chunk as produced by `chunk_text_by_pages`. -/
structure PChunk where
  content : String
  page_number : ℕ
  token_count : ℕ
  deriving DecidableEq

/-- The page loop of `chunk_text_by_pages` (main.py lines 124-137) with the
1-based `page_num` counter: all-whitespace pages are skipped (Python
`if not page_text.strip()`), chunks shorter than 50 characters are dropped. -/
def pagesAux : ℕ → List String → List PChunk
  | _, [] => []
  | page_num, page_text :: rest =>
    (if page_text.data.all pyIsSpace then []
     else
       ((chunk_text page_text 1500 200).filter
           (fun c => decide (50 ≤ c.content.length))).map
         (fun c => ⟨c.content, page_num, c.token_count⟩)) ++
      pagesAux (page_num + 1) rest

/-- `chunk_text_by_pages(pages)` (main.py lines 114-139); `chunk_size = 1500`,
`overlap = 200` are fixed in the source. -/
def chunk_text_by_pages (pages : List String) : List PChunk := pagesAux 1 pages

/-- The fixed query-expansion table (main.py lines 171-176), in the source's
insertion order. -/
def query_expansions : List (String × List String) :=
  [("cogs", ["cost of goods sold", "cost of sales", "COGS", "cost of goods"]),
   ("revenue", ["net sales", "sales", "revenue", "total revenue"]),
   ("profit", ["net income", "earnings", "profit", "net profit"]),
   ("expenses", ["operating expenses", "expenses", "costs"])]

/-- Python `query.lower()` (ASCII model, matching `Char.toLower`). -/
def pyLower (s : String) : String := String.mk (s.data.map Char.toLower)

/-- Python substring containment `sub in s`. -/
def strContains (s sub : String) : Bool :=
  (List.range (s.data.length + 1)).any (fun i => sub.data.isPrefixOf (s.data.drop i))

/-- The expansion loop (main.py lines 179-184): `expanded_query` starts as the
lowercased query; the first key contained in it replaces the expansion with the
original query followed by the space-joined synonyms, then `break`s; if no key
matches, the lowercased query remains. -/
def expandLoop (query : String) : List (String × List String) → String
  | [] => pyLower query
  | (term, synonyms) :: rest =>
    if strContains (pyLower query) term then query ++ " " ++ joinWords synonyms
    else expandLoop query rest

/-- The expanded query handed to the embedder (main.py lines 179-189). -/
def expandQuery (query : String) : String := expandLoop query query_expansions

/-- `sum(a * a for a in v)` (main.py lines 236-237). -/
def sumSq : List ℝ → ℝ
  | [] => 0
  | a :: rest => a * a + sumSq rest

/-- `sum(a * b for a, b in zip(v, w))` (main.py line 235); `zip` stops at the
shorter list. -/
def dotProd : List ℝ → List ℝ → ℝ
  | a :: v, b :: w => a * b + dotProd v w
  | _, _ => 0

/-- `sum(...) ** 0.5`. -/
noncomputable def pyNorm (v : List ℝ) : ℝ := Real.sqrt (sumSq v)

/-- Cosine similarity with the zero-norm guard (main.py line 238):
`dot / (norm_a * norm_b) if (norm_a * norm_b) > 0 else 0`. -/
noncomputable def cosineSim (embedding query_embedding : List ℝ) : ℝ :=
  if pyNorm embedding * pyNorm query_embedding > 0 then
    dotProd embedding query_embedding / (pyNorm embedding * pyNorm query_embedding)
  else 0

/-- A persisted chunk row as read back at retrieval time (main.py line 196:
the query selects id, content, page_number, embedding).  `chunk_index` is part
of the persisted schema (line 563) and is carried here to state insertion
order; scoring never reads it.  A missing embedding is `none`. -/
structure Row where
  id : String
  content : String
  page_number : Option ℕ
  chunk_index : ℕ
  embedding : Option (List ℝ)

/-- The scored-chunk dict built at main.py lines 240-245. -/
structure Scored where
  id : String
  content : String
  page_number : Option ℕ
  chunk_index : ℕ
  similarity : ℝ

/-- The per-row scoring step (main.py lines 210-250): rows with a missing
embedding are skipped (line 214), rows whose embedding dimensionality differs
from the query's are skipped (line 249); the rest get a cosine similarity.
(The string-parsing and `isinstance` branches of the source cannot arise in
this typed model, where an embedding is either absent or a float list.) -/
noncomputable def scoreChunk (query_embedding : List ℝ) (r : Row) : Option Scored :=
  match r.embedding with
  | none => none
  | some embedding =>
    if embedding.length = query_embedding.length then
      some ⟨r.id, r.content, r.page_number, r.chunk_index,
            cosineSim embedding query_embedding⟩
    else none

/-- Whether a row survives the scoring filter. -/
def validEmb (query_embedding : List ℝ) (r : Row) : Bool :=
  match r.embedding with
  | none => false
  | some embedding => decide (embedding.length = query_embedding.length)

/-- Stable descending insertion, modelling Python's stable
`.sort(key=lambda x: x["similarity"], reverse=True)` (main.py line 256): an
element moves past exactly the elements of strictly greater similarity, so
equal similarities keep their original relative order. -/
noncomputable def insertDesc (x : Scored) : List Scored → List Scored
  | [] => [x]
  | y :: l => if y.similarity ≤ x.similarity then x :: y :: l else y :: insertDesc x l

/-- Stable descending sort by similarity (main.py line 256). -/
noncomputable def sortDesc : List Scored → List Scored
  | [] => []
  | x :: l => insertDesc x (sortDesc l)

/-- Scoring, ranking and truncation (main.py lines 207-257):
score every row, sort by descending similarity, return the first `top_k`. -/
noncomputable def rankChunks (query_embedding : List ℝ) (rows : List Row)
    (top_k : ℕ) : List Scored :=
  List.take top_k (sortDesc (rows.filterMap (scoreChunk query_embedding)))

/-- `retrieve_relevant_chunks` (main.py lines 161-270): the client guard
(line 166), query expansion, the external query-embedding call (`embedder`),
and scoring/ranking.  `if not query_embedding` catches both `None` and the
falsy empty list.  Every failure path returns `[]`; the model is a total
function, so no exception reaches the caller. -/
noncomputable def retrieve_relevant_chunks (clientsConfigured : Bool)
    (embedder : String → Option (List ℝ)) (query : String)
    (rows : List Row) (top_k : ℕ) : List Scored :=
  if clientsConfigured = false then []
  else
    match embedder (expandQuery query) with
    | none => []
    | some [] => []
    | some query_embedding => rankChunks query_embedding rows top_k

/-- A citation as built by the `chat` endpoint. -/
structure Citation where
  id : String
  label : String
  excerpt : String
  deriving DecidableEq

/-- Main.py line 341: `f"Page {n}" if chunk.get('page_number') else "Document"`
(Python truthiness: a page number of 0 also yields "Document"). -/
def pageLabel : Option ℕ → String
  | none => "Document"
  | some n => if n = 0 then "Document" else "Page " ++ toString n

/-- Main.py line 343: the first 300 characters, ellipsis-suffixed when the
content is longer. -/
def excerptOf (content : String) : String :=
  if 300 < content.length then content.take 300 ++ "..." else content

/-- The citation loop of `chat` (main.py lines 340-348), with `enumerate`
index. -/
def citationsAux : ℕ → List Scored → List Citation
  | _, [] => []
  | idx, chunk :: rest =>
    ⟨"cite-" ++ toString (idx + 1), pageLabel chunk.page_number,
     excerptOf chunk.content⟩ :: citationsAux (idx + 1) rest

/-- One citation per retrieved chunk, in rank order (main.py lines 340-348). -/
def buildCitations (relevant_chunks : List Scored) : List Citation :=
  citationsAux 0 relevant_chunks

/-- A chunk record as persisted during ingestion (main.py lines 561-568). -/
structure ChunkRecord where
  document_id : String
  chunk_index : ℕ
  content : String
  page_number : Option ℕ
  embedding : List ℝ
  token_count : ℕ

/-- The per-chunk embedding loop of `create_document` (main.py lines 544-570):
the external embedding call is `embedder`; chunks whose call returns no vector
(`None`, or the falsy empty list caught by `if embedding:`) or a vector of
length ≠ 1536 are skipped and counted in `failed_embeddings`, and the loop
continues (the `isinstance` check cannot fail in this typed model).  Returns
`(chunk_records, failed_embeddings)`. -/
def buildChunkRecords (doc_id : String) (embedder : String → Option (List ℝ)) :
    ℕ → List PChunk → List ChunkRecord × ℕ
  | _, [] => ([], 0)
  | idx, chunk :: rest =>
    let r := buildChunkRecords doc_id embedder (idx + 1) rest
    match embedder chunk.content with
    | none => (r.1, r.2 + 1)
    | some [] => (r.1, r.2 + 1)
    | some embedding =>
      if embedding.length ≠ 1536 then (r.1, r.2 + 1)
      else
        (⟨doc_id, idx, chunk.content, some chunk.page_number, embedding,
          chunk.token_count⟩ :: r.1, r.2)

/-- The ranking order of the retriever's output: strictly greater similarity
first, ties by insertion (`chunk_index`) order. -/
def retOrder (a b : Scored) : Prop :=
  b.similarity < a.similarity ∨
    (b.similarity = a.similarity ∧ a.chunk_index < b.chunk_index)

/-! ### Helper lemmas about the chunker -/

theorem sumLen1_append (l l' : List String) :
    sumLen1 (l ++ l') = sumLen1 l + sumLen1 l' := by
  induction l with
  | nil => simp [sumLen1]
  | cons w ws ih => simp [sumLen1, ih]; omega

theorem string_mk_length (l : List Char) : (String.mk l).length = l.length := rfl

theorem joinWords_length : ∀ ws : List String, ws ≠ [] →
    (joinWords ws).length + 1 = sumLen1 ws
  | [w], _ => by simp [joinWords, sumLen1]
  | w :: w' :: ws, _ => by
    have ih := joinWords_length (w' :: ws) (by simp)
    have hj : joinWords (w :: w' :: ws) = w ++ " " ++ joinWords (w' :: ws) := rfl
    have hsp : (" " : String).length = 1 := rfl
    rw [hj, String.length_append, String.length_append, hsp]
    simp only [sumLen1] at ih ⊢
    omega

theorem overlapAux_isSfx (ov : ℕ) : ∀ (rs acc : List String) (ol : ℕ),
    overlapAux ov rs acc ol <:+ rs.reverse ++ acc
  | [], acc, ol => by simp [overlapAux]
  | w :: rest, acc, ol => by
    rw [overlapAux]
    split
    · simpa [List.append_assoc] using
        overlapAux_isSfx ov rest (w :: acc) (ol + w.length + 1)
    · exact List.suffix_append _ _

theorem overlapTail_isSfx (ov : ℕ) (l : List String) : overlapTail ov l <:+ l := by
  simpa using overlapAux_isSfx ov l.reverse [] 0

theorem overlapAux_sum (ov : ℕ) : ∀ (rs acc : List String) (ol : ℕ),
    ol = sumLen1 acc → ol ≤ ov → sumLen1 (overlapAux ov rs acc ol) ≤ ov
  | [], acc, ol, h, hle => by rw [overlapAux]; omega
  | w :: rest, acc, ol, h, hle => by
    rw [overlapAux]
    split
    · exact overlapAux_sum ov rest (w :: acc) _ (by simp [sumLen1]; omega) (by omega)
    · omega

theorem overlapTail_sum (ov : ℕ) (l : List String) :
    sumLen1 (overlapTail ov l) ≤ ov :=
  overlapAux_sum ov l.reverse [] 0 rfl (Nat.zero_le ov)

theorem chunkWordsAux_head (cs ov : ℕ) : ∀ (ws cc : List String) (cl : ℕ),
    cc ≠ [] → ∃ c L, chunkWordsAux cs ov ws cc cl = c :: L ∧ cc <+: c
  | [], cc, cl, h => by
    rw [chunkWordsAux]
    exact ⟨cc, [], by simp [h], List.prefix_rfl⟩
  | word :: rest, cc, cl, h => by
    rw [chunkWordsAux]
    split
    · exact ⟨cc, _, rfl, List.prefix_rfl⟩
    · obtain ⟨c, L, heq, hpre⟩ :=
        chunkWordsAux_head cs ov rest (cc ++ [word]) (cl + (word.length + 1))
          (by simp)
      exact ⟨c, L, heq, (List.prefix_append cc [word]).trans hpre⟩

theorem chunkWordsAux_chain (cs ov : ℕ) : ∀ (ws cc : List String) (cl : ℕ),
    List.Chain' (fun a b => overlapTail ov a <+: b) (chunkWordsAux cs ov ws cc cl)
  | [], cc, cl => by
    rw [chunkWordsAux]
    split <;> simp
  | word :: rest, cc, cl => by
    rw [chunkWordsAux]
    split
    · obtain ⟨c, L, heq, hpre⟩ :=
        chunkWordsAux_head cs ov rest (overlapTail ov cc ++ [word])
          (sumLen1 (overlapTail ov cc ++ [word])) (by simp)
      have ih := chunkWordsAux_chain cs ov rest (overlapTail ov cc ++ [word])
        (sumLen1 (overlapTail ov cc ++ [word]))
      rw [heq] at ih ⊢
      exact List.Chain'.cons
        ((List.prefix_append (overlapTail ov cc) [word]).trans hpre) ih
    · exact chunkWordsAux_chain cs ov rest (cc ++ [word]) (cl + (word.length + 1))

theorem chunkWordsAux_subset (cs ov : ℕ) (W : List String) :
    ∀ (ws cc : List String) (cl : ℕ), (∀ w ∈ cc, w ∈ W) → (∀ w ∈ ws, w ∈ W) →
    ∀ c ∈ chunkWordsAux cs ov ws cc cl, ∀ w ∈ c, w ∈ W
  | [], cc, cl, hcc, _ => by
    rw [chunkWordsAux]
    split
    · simp
    · intro c hc
      rw [List.mem_singleton] at hc
      subst hc
      exact hcc
  | wd :: rest, cc, cl, hcc, hws => by
    rw [chunkWordsAux]
    split
    · intro c hc
      rcases List.mem_cons.mp hc with h | h
      · subst h; exact hcc
      · refine chunkWordsAux_subset cs ov W rest _ _ ?_ ?_ c h
        · intro w' hw'
          rcases List.mem_append.mp hw' with h' | h'
          · exact hcc w' ((overlapTail_isSfx ov cc).subset h')
          · rw [List.mem_singleton] at h'
            subst h'
            exact hws _ (by simp)
        · intro w' hw'
          exact hws w' (by simp [hw'])
    · refine chunkWordsAux_subset cs ov W rest _ _ ?_ ?_
      · intro w' hw'
        rcases List.mem_append.mp hw' with h' | h'
        · exact hcc w' h'
        · rw [List.mem_singleton] at h'
          subst h'
          exact hws _ (by simp)
      · intro w' hw'
        exact hws w' (by simp [hw'])

theorem chunkWordsAux_size (cs ov : ℕ) : ∀ (ws cc : List String) (cl : ℕ),
    cl = sumLen1 cc → (cl ≤ cs ∨ ∃ w ∈ cc, cs - ov ≤ w.length) →
    ∀ c ∈ chunkWordsAux cs ov ws cc cl,
      sumLen1 c ≤ cs ∨ ∃ w ∈ c, cs - ov ≤ w.length
  | [], cc, cl, hcl, hinv => by
    rw [chunkWordsAux]
    split
    · simp
    · intro c hc
      rw [List.mem_singleton] at hc
      subst hc
      rcases hinv with h | h
      · exact Or.inl (by omega)
      · exact Or.inr h
  | word :: rest, cc, cl, hcl, hinv => by
    rw [chunkWordsAux]
    split
    · rename_i hcond
      intro c hc
      rcases List.mem_cons.mp hc with h | h
      · subst h
        rcases hinv with h' | h'
        · exact Or.inl (hcl ▸ h')
        · exact Or.inr h'
      · refine chunkWordsAux_size cs ov rest _ _ rfl ?_ c h
        have hov := overlapTail_sum ov cc
        have hsum : sumLen1 (overlapTail ov cc ++ [word]) =
            sumLen1 (overlapTail ov cc) + (word.length + 1) := by
          rw [sumLen1_append]; simp [sumLen1]
        by_cases hle : sumLen1 (overlapTail ov cc ++ [word]) ≤ cs
        · exact Or.inl hle
        · exact Or.inr ⟨word, by simp, by omega⟩
    · rename_i hcond
      have hsum : cl + (word.length + 1) = sumLen1 (cc ++ [word]) := by
        rw [sumLen1_append]; simp [sumLen1]; omega
      refine chunkWordsAux_size cs ov rest _ _ hsum ?_
      by_cases hcc : cc = []
      · subst hcc
        simp [sumLen1] at hcl
        subst hcl
        by_cases hle : word.length + 1 ≤ cs
        · exact Or.inl (by simpa [sumLen1] using hle)
        · refine Or.inr ⟨word, by simp, by omega⟩
      · have hle : cl + (word.length + 1) ≤ cs := by
          rcases Decidable.not_and_iff_or_not.mp hcond with h | h
          · omega
          · exact absurd hcc (by simpa using h)
        exact Or.inl (hsum ▸ hle)

theorem chunkWordsAux_single (cs ov : ℕ) : ∀ (ws cc : List String) (cl : ℕ),
    cl = sumLen1 cc → sumLen1 cc + sumLen1 ws ≤ cs →
    chunkWordsAux cs ov ws cc cl = if cc ++ ws = [] then [] else [cc ++ ws]
  | [], cc, cl, hcl, hle => by
    rw [chunkWordsAux]
    simp
  | word :: rest, cc, cl, hcl, hle => by
    rw [chunkWordsAux]
    rw [if_neg]
    · have hsum : cl + (word.length + 1) = sumLen1 (cc ++ [word]) := by
        rw [sumLen1_append]; simp [sumLen1]; omega
      have hrec := chunkWordsAux_single cs ov rest (cc ++ [word])
        (cl + (word.length + 1)) hsum
        (by rw [sumLen1_append]; simp [sumLen1] at hle ⊢; omega)
      rw [hrec]
      simp
    · intro ⟨h1, _⟩
      simp [sumLen1] at hle
      omega

theorem splitAux_sum : ∀ (cs cur : List Char),
    sumLen1 (splitAux cs cur) ≤ cs.length + cur.length + 1
  | [], cur => by
    rw [splitAux]
    split
    · simp [sumLen1]
    · simp [sumLen1, string_mk_length]
  | c :: rest, cur => by
    rw [splitAux]
    split
    · split
      · have := splitAux_sum rest []
        simp at this ⊢
        omega
      · have := splitAux_sum rest []
        simp [sumLen1, string_mk_length] at this ⊢
        omega
    · have := splitAux_sum rest (c :: cur)
      simp at this ⊢
      omega

theorem splitAux_space : ∀ cs : List Char,
    (∀ c ∈ cs, pyIsSpace c = true) → splitAux cs [] = []
  | [], _ => by rw [splitAux]; simp
  | c :: rest, h => by
    rw [splitAux]
    rw [if_pos (h c (by simp))]
    simpa using splitAux_space rest (fun c' hc' => h c' (by simp [hc']))

theorem splitWords_of_space (s : String) (h : s.data.all pyIsSpace = true) :
    splitWords s = [] :=
  splitAux_space s.data (by simpa [List.all_eq_true] using h)

theorem string_length_data (s : String) : s.length = s.data.length := rfl

theorem splitWords_sum (s : String) : sumLen1 (splitWords s) ≤ s.length + 1 := by
  have h := splitAux_sum s.data []
  have h2 : sumLen1 (splitWords s) = sumLen1 (splitAux s.data []) := rfl
  have h3 : s.length = s.data.length := rfl
  simp only [List.length_nil] at h
  omega

/-! ### Helper lemmas about retrieval -/

theorem insertDesc_perm (x : Scored) : ∀ l : List Scored,
    List.Perm (insertDesc x l) (x :: l)
  | [] => by rw [insertDesc]
  | y :: l => by
    rw [insertDesc]
    split
    · exact List.Perm.refl _
    · exact (List.Perm.cons y (insertDesc_perm x l)).trans (List.Perm.swap x y l)

theorem sortDesc_perm : ∀ l : List Scored, List.Perm (sortDesc l) l
  | [] => List.Perm.refl _
  | x :: l => by
    rw [sortDesc]
    exact (insertDesc_perm x (sortDesc l)).trans (List.Perm.cons x (sortDesc_perm l))

theorem insertDesc_pairwise (x : Scored) : ∀ l : List Scored,
    l.Pairwise retOrder → (∀ y ∈ l, x.chunk_index < y.chunk_index) →
    (insertDesc x l).Pairwise retOrder
  | [], _, _ => by rw [insertDesc]; exact List.pairwise_singleton _ _
  | y :: l, hp, hlt => by
    rcases List.pairwise_cons.mp hp with ⟨hy, hl⟩
    rw [insertDesc]
    split
    · rename_i hc
      refine List.pairwise_cons.mpr ⟨?_, hp⟩
      intro z hz
      rcases List.mem_cons.mp hz with h | h
      · subst h
        rcases lt_or_eq_of_le hc with h' | h'
        · exact Or.inl h'
        · exact Or.inr ⟨h', hlt z (List.mem_cons_self _ _)⟩
      · rcases hy z h with h' | h'
        · exact Or.inl (lt_of_lt_of_le h' hc)
        · rcases lt_or_eq_of_le hc with h'' | h''
          · exact Or.inl (by rw [h'.1]; exact h'')
          · exact Or.inr ⟨h'.1.trans h'', hlt z (List.mem_cons_of_mem _ h)⟩
    · rename_i hc
      refine List.pairwise_cons.mpr ⟨?_, insertDesc_pairwise x l hl
        (fun z hz => hlt z (List.mem_cons_of_mem _ hz))⟩
      intro z hz
      have hz' := (insertDesc_perm x l).mem_iff.mp hz
      rcases List.mem_cons.mp hz' with h | h
      · subst h
        exact Or.inl (not_le.mp hc)
      · exact hy z h

theorem sortDesc_pairwise : ∀ l : List Scored,
    l.Pairwise (fun a b => a.chunk_index < b.chunk_index) →
    (sortDesc l).Pairwise retOrder
  | [], _ => by rw [sortDesc]; exact List.Pairwise.nil
  | x :: l, hp => by
    rcases List.pairwise_cons.mp hp with ⟨hx, hl⟩
    rw [sortDesc]
    exact insertDesc_pairwise x (sortDesc l) (sortDesc_pairwise l hl)
      (fun y hy => hx y ((sortDesc_perm l).mem_iff.mp hy))

theorem scoreChunk_eq_some (qe : List ℝ) (r : Row) (s : Scored)
    (h : scoreChunk qe r = some s) :
    ∃ e, r.embedding = some e ∧ e.length = qe.length ∧
      s = ⟨r.id, r.content, r.page_number, r.chunk_index, cosineSim e qe⟩ := by
  unfold scoreChunk at h
  split at h
  · exact absurd h (by simp)
  · rename_i e hre
    split at h
    · rename_i hlen
      exact ⟨e, hre, hlen, (Option.some.inj h).symm⟩
    · exact absurd h (by simp)

theorem scoreChunk_isSome (qe : List ℝ) (r : Row) :
    (scoreChunk qe r).isSome = validEmb qe r := by
  unfold scoreChunk validEmb
  cases r.embedding with
  | none => rfl
  | some e => by_cases h : e.length = qe.length <;> simp [h]

theorem filterMap_score_pairwise (qe : List ℝ) : ∀ rows : List Row,
    rows.Pairwise (fun a b => a.chunk_index < b.chunk_index) →
    (rows.filterMap (scoreChunk qe)).Pairwise
      (fun a b => a.chunk_index < b.chunk_index)
  | [], _ => by simp
  | r :: rows, hp => by
    rcases List.pairwise_cons.mp hp with ⟨hr, hrows⟩
    rw [List.filterMap_cons]
    cases hsc : scoreChunk qe r with
    | none => exact filterMap_score_pairwise qe rows hrows
    | some s =>
      refine List.pairwise_cons.mpr ⟨?_, filterMap_score_pairwise qe rows hrows⟩
      intro y hy
      obtain ⟨r', hr', hsc'⟩ := List.mem_filterMap.mp hy
      obtain ⟨e, _, _, hs⟩ := scoreChunk_eq_some qe r s hsc
      obtain ⟨e', _, _, hy'⟩ := scoreChunk_eq_some qe r' y hsc'
      subst hs
      subst hy'
      simpa using hr r' hr'

theorem length_filterMap_eq_filter {α β : Type} (f : α → Option β) (p : α → Bool)
    (hfp : ∀ a, (f a).isSome = p a) :
    ∀ l : List α, (l.filterMap f).length = (l.filter p).length
  | [] => rfl
  | a :: l => by
    rw [List.filterMap_cons, List.filter_cons]
    cases h : f a with
    | none =>
      have hpa : p a = false := by rw [← hfp a, h]; rfl
      simp [hpa, length_filterMap_eq_filter f p hfp l]
    | some b =>
      have hpa : p a = true := by rw [← hfp a, h]; rfl
      simp [hpa, length_filterMap_eq_filter f p hfp l]

/-! ### Helper lemmas about pages, citations, expansion, ingestion -/

theorem pagesAux_mem : ∀ (n : ℕ) (ps : List String) (c : PChunk),
    c ∈ pagesAux n ps → ∃ i, ∃ h : i < ps.length, c.page_number = n + i ∧
      ∃ c0 ∈ chunk_text (ps.get ⟨i, h⟩) 1500 200,
        c.content = c0.content ∧ c.token_count = c0.token_count ∧
          50 ≤ c0.content.length
  | n, [], c => by simp [pagesAux]
  | n, p :: ps, c => fun hc => by
    rw [pagesAux] at hc
    rcases List.mem_append.mp hc with h | h
    · by_cases hsp : p.data.all pyIsSpace
      · rw [if_pos hsp] at h
        exact absurd h (by simp)
      · rw [if_neg hsp] at h
        obtain ⟨c0, hc0, hmap⟩ := List.mem_map.mp h
        have hfil := List.mem_filter.mp hc0
        refine ⟨0, by simp, ?_, c0, hfil.1, ?_, ?_, ?_⟩
        · rw [← hmap]; simp
        · rw [← hmap]
        · rw [← hmap]
        · exact of_decide_eq_true hfil.2
    · obtain ⟨i, hi, hpn, c0, hc0, hrest⟩ := pagesAux_mem (n + 1) ps c h
      refine ⟨i + 1, by simpa using Nat.succ_lt_succ hi, by omega, c0, ?_, hrest⟩
      simpa using hc0

theorem citationsAux_length : ∀ (n : ℕ) (l : List Scored),
    (citationsAux n l).length = l.length
  | _, [] => rfl
  | n, c :: l => by
    rw [citationsAux]
    simp [citationsAux_length (n + 1) l]

theorem citationsAux_get : ∀ (l : List Scored) (n i : ℕ) (h : i < l.length),
    (citationsAux n l).get? i = some ⟨"cite-" ++ toString (n + i + 1),
      pageLabel (l.get ⟨i, h⟩).page_number, excerptOf (l.get ⟨i, h⟩).content⟩
  | [], _, i, h => by simp at h
  | c :: l, n, 0, h => by simp [citationsAux]
  | c :: l, n, i + 1, h => by
    have ih := citationsAux_get l (n + 1) i (by simpa using h)
    have harith : n + (i + 1) + 1 = n + 1 + i + 1 := by omega
    rw [citationsAux]
    simpa [harith] using ih

theorem expandLoop_none (q : String) : ∀ table : List (String × List String),
    (∀ p ∈ table, strContains (pyLower q) p.1 = false) →
    expandLoop q table = pyLower q
  | [], _ => rfl
  | (t, syns) :: rest, h => by
    rw [expandLoop]
    rw [if_neg (by simp [h (t, syns) (by simp)])]
    exact expandLoop_none q rest (fun p hp => h p (by simp [hp]))

theorem expandLoop_found (q : String) : ∀ (table : List (String × List String))
    (i : ℕ) (hi : i < table.length),
    strContains (pyLower q) (table.get ⟨i, hi⟩).1 = true →
    (∀ j (hj : j < table.length), j < i →
      strContains (pyLower q) (table.get ⟨j, hj⟩).1 = false) →
    expandLoop q table = q ++ " " ++ joinWords (table.get ⟨i, hi⟩).2
  | [], i, hi, _, _ => by simp at hi
  | (t, syns) :: rest, 0, hi, hm, _ => by
    rw [expandLoop]
    simp only [List.get] at hm ⊢
    rw [if_pos hm]
  | (t, syns) :: rest, i + 1, hi, hm, hfirst => by
    rw [expandLoop]
    have h0 : strContains (pyLower q) t = false := by
      simpa using hfirst 0 (by simp) (Nat.succ_pos i)
    rw [if_neg (by simp [h0])]
    have ih := expandLoop_found q rest i (by simpa using hi) (by simpa using hm)
      (fun j hj hlt => by simpa using hfirst (j + 1) (by simpa using hj) (by omega))
    simpa using ih

theorem buildChunkRecords_spec (doc_id : String)
    (embedder : String → Option (List ℝ)) : ∀ (idx : ℕ) (chunks : List PChunk),
    (∀ rec ∈ (buildChunkRecords doc_id embedder idx chunks).1,
      rec.embedding.length = 1536 ∧ ∃ c ∈ chunks, rec.content = c.content ∧
        embedder c.content = some rec.embedding) ∧
    (buildChunkRecords doc_id embedder idx chunks).1.length +
      (buildChunkRecords doc_id embedder idx chunks).2 = chunks.length
  | idx, [] => by simp [buildChunkRecords]
  | idx, c :: chunks => by
    have ih := buildChunkRecords_spec doc_id embedder (idx + 1) chunks
    simp only [buildChunkRecords]
    split
    · refine ⟨?_, ?_⟩
      · intro rec hrec
        obtain ⟨h1536, c', hc', hcnt⟩ := ih.1 rec hrec
        exact ⟨h1536, c', by simp [hc'], hcnt⟩
      · show (buildChunkRecords doc_id embedder (idx + 1) chunks).1.length +
            ((buildChunkRecords doc_id embedder (idx + 1) chunks).2 + 1) =
            (c :: chunks).length
        have h2 := ih.2
        simp only [List.length_cons]
        omega
    · refine ⟨?_, ?_⟩
      · intro rec hrec
        obtain ⟨h1536, c', hc', hcnt⟩ := ih.1 rec hrec
        exact ⟨h1536, c', by simp [hc'], hcnt⟩
      · show (buildChunkRecords doc_id embedder (idx + 1) chunks).1.length +
            ((buildChunkRecords doc_id embedder (idx + 1) chunks).2 + 1) =
            (c :: chunks).length
        have h2 := ih.2
        simp only [List.length_cons]
        omega
    · rename_i x xs hemb
      split
      · refine ⟨?_, ?_⟩
        · intro rec hrec
          obtain ⟨h1536, c', hc', hcnt⟩ := ih.1 rec hrec
          exact ⟨h1536, c', by simp [hc'], hcnt⟩
        · show (buildChunkRecords doc_id embedder (idx + 1) chunks).1.length +
              ((buildChunkRecords doc_id embedder (idx + 1) chunks).2 + 1) =
              (c :: chunks).length
          have h2 := ih.2
          simp only [List.length_cons]
          omega
      · rename_i hlen
        push_neg at hlen
        refine ⟨?_, ?_⟩
        · intro rec hrec
          rcases List.mem_cons.mp hrec with h | h
          · subst h
            exact ⟨hlen, c, by simp, rfl, hemb⟩
          · obtain ⟨h1536, c', hc', hcnt⟩ := ih.1 rec h
            exact ⟨h1536, c', by simp [hc'], hcnt⟩
        · show (buildChunkRecords doc_id embedder (idx + 1) chunks).1.length + 1 +
              (buildChunkRecords doc_id embedder (idx + 1) chunks).2 =
              (c :: chunks).length
          have h2 := ih.2
          simp only [List.length_cons]
          omega

/-! ### Claims -/

/-- C1: for every query, document chunk set (consumed in chunk_index order)
and top_k, the sequence returned by the retrieve operation has length at most
top_k, its elements are ordered by non-increasing similarity score, and among
chunks with equal similarity the one earlier in chunk insertion (chunk_index)
order comes first. -/
theorem C1_retrieve_ranked (clients : Bool)
    (embedder : String → Option (List ℝ)) (query : String) (rows : List Row)
    (top_k : ℕ)
    (hrows : rows.Pairwise (fun a b => a.chunk_index < b.chunk_index)) :
    (retrieve_relevant_chunks clients embedder query rows top_k).length ≤ top_k ∧
    (retrieve_relevant_chunks clients embedder query rows top_k).Pairwise
      (fun a b => b.similarity ≤ a.similarity) ∧
    (retrieve_relevant_chunks clients embedder query rows top_k).Pairwise
      retOrder := by
  unfold retrieve_relevant_chunks
  split
  · simp
  · cases hqe : embedder (expandQuery query) with
    | none => simp
    | some qe =>
      cases qe with
      | nil => simp
      | cons x xs =>
        have hpw : (sortDesc (rows.filterMap (scoreChunk (x :: xs)))).Pairwise
            retOrder :=
          sortDesc_pairwise _ (filterMap_score_pairwise (x :: xs) rows hrows)
        have htake := hpw.sublist (List.take_sublist top_k _)
        exact ⟨List.length_take_le _ _,
          htake.imp (fun hab => hab.elim le_of_lt (fun h' => le_of_eq h'.1)),
          htake⟩

/-- Witness for C1: a two-row store in chunk_index order. -/
theorem C1_retrieve_ranked_witness :
    ([⟨"a", "c1", some 1, 0, some [(1 : ℝ)]⟩,
      ⟨"b", "c2", some 2, 1, some [(-1 : ℝ)]⟩] : List Row).Pairwise
        (fun a b => a.chunk_index < b.chunk_index) ∧
    ((retrieve_relevant_chunks true (fun _ => some [(1 : ℝ)]) "q"
        [⟨"a", "c1", some 1, 0, some [(1 : ℝ)]⟩,
         ⟨"b", "c2", some 2, 1, some [(-1 : ℝ)]⟩] 5).length ≤ 5 ∧
     (retrieve_relevant_chunks true (fun _ => some [(1 : ℝ)]) "q"
        [⟨"a", "c1", some 1, 0, some [(1 : ℝ)]⟩,
         ⟨"b", "c2", some 2, 1, some [(-1 : ℝ)]⟩] 5).Pairwise
       (fun a b => b.similarity ≤ a.similarity) ∧
     (retrieve_relevant_chunks true (fun _ => some [(1 : ℝ)]) "q"
        [⟨"a", "c1", some 1, 0, some [(1 : ℝ)]⟩,
         ⟨"b", "c2", some 2, 1, some [(-1 : ℝ)]⟩] 5).Pairwise retOrder) :=
  ⟨by simp, C1_retrieve_ranked true (fun _ => some [(1 : ℝ)]) "q"
    [⟨"a", "c1", some 1, 0, some [(1 : ℝ)]⟩,
     ⟨"b", "c2", some 2, 1, some [(-1 : ℝ)]⟩] 5 (by simp)⟩

/-- C2 counterexample: "Hello" matches no expansion key, yet the expanded
query is the lowercased "hello", not the original query "Hello" — refuting
the claim that with no key match the expanded query equals the original
query. -/
theorem C2_lowercase_counterexample :
    (∀ p ∈ query_expansions, strContains (pyLower "Hello") p.1 = false) ∧
    expandQuery "Hello" ≠ "Hello" := ⟨by decide, by decide⟩

/-- C2 (amended): if the lowercased query contains one of the fixed table's
keys, the expanded query is the original query text with the first matching
key's synonym list (space-joined) appended, and no further expansions
accumulate after the first match; if no key matches, the expanded query
equals the LOWERCASED original query. -/
theorem C2_expand_first_match (q : String) :
    ((∀ p ∈ query_expansions, strContains (pyLower q) p.1 = false) →
      expandQuery q = pyLower q) ∧
    (∀ i (hi : i < query_expansions.length),
      strContains (pyLower q) (query_expansions.get ⟨i, hi⟩).1 = true →
      (∀ j (hj : j < query_expansions.length), j < i →
        strContains (pyLower q) (query_expansions.get ⟨j, hj⟩).1 = false) →
      expandQuery q = q ++ " " ++ joinWords (query_expansions.get ⟨i, hi⟩).2) :=
  ⟨fun h => expandLoop_none q _ h,
   fun i hi hm hf => expandLoop_found q _ i hi hm hf⟩

/-- Witness for C2: "What was the COGS?" matches the first key "cogs". -/
theorem C2_expand_first_match_witness :
    expandQuery "What was the COGS?" =
      "What was the COGS?" ++ " " ++
        joinWords (query_expansions.get ⟨0, by decide⟩).2 :=
  (C2_expand_first_match "What was the COGS?").2 0 (by decide) (by decide)
    (fun j hj hlt => absurd hlt (by omega))

/-- C3 counterexample: with chunk_size 10, overlap 5 (0 < overlap <
chunk_size), the first — non-final — chunk of "aaaaaaaaaaaa bb cc" has 12 > 10
characters: an oversized word is emitted whole, so a non-final chunk can
exceed chunk_size. -/
theorem C3_size_counterexample :
    (0 < 5 ∧ 5 < 10) ∧
    ¬ (∀ c ∈ (chunk_text "aaaaaaaaaaaa bb cc" 10 5).dropLast,
        c.content.length ≤ 10) := ⟨by decide, by decide⟩

/-- C3 (amended): with 0 < overlap < chunk_size, every emitted chunk either
has content length at most chunk_size or contains a word of length at least
chunk_size − overlap (an oversized word is emitted whole — the size bound is a
soft trigger, not a truncation); and every persisted chunk has content length
at least 50 characters, shorter fragments being dropped. -/
theorem C3_chunk_size_bound (text : String) (chunk_size overlap : ℕ)
    (pages : List String) (h1 : 0 < overlap) (h2 : overlap < chunk_size) :
    (∀ ws ∈ wordChunks text chunk_size overlap,
      (mkChunk ws).content.length ≤ chunk_size ∨
        ∃ w ∈ ws, chunk_size - overlap ≤ w.length) ∧
    (∀ c ∈ chunk_text text chunk_size overlap,
      c.content.length ≤ chunk_size ∨
        ∃ w ∈ splitWords text, chunk_size - overlap ≤ w.length) ∧
    (∀ c ∈ chunk_text_by_pages pages, 50 ≤ c.content.length) := by
  have hmain : ∀ ws ∈ wordChunks text chunk_size overlap,
      (mkChunk ws).content.length ≤ chunk_size ∨
        ∃ w ∈ ws, chunk_size - overlap ≤ w.length := by
    intro ws hws
    have hsz := chunkWordsAux_size chunk_size overlap (splitWords text) [] 0
      rfl (Or.inl (Nat.zero_le _)) ws hws
    rcases hsz with h | h
    · left
      by_cases hnil : ws = []
      · subst hnil
        simp [mkChunk, joinWords]
      · have hj := joinWords_length ws hnil
        simp only [mkChunk]
        omega
    · exact Or.inr h
  refine ⟨hmain, ?_, ?_⟩
  · intro c hcm
    unfold chunk_text at hcm
    split at hcm
    · exact absurd hcm (by simp)
    · obtain ⟨ws, hws, hmk⟩ := List.mem_map.mp hcm
      subst hmk
      rcases hmain ws hws with h | ⟨w, hw, hlen⟩
      · exact Or.inl h
      · exact Or.inr ⟨w, chunkWordsAux_subset chunk_size overlap
          (splitWords text) (splitWords text) [] 0 (by simp)
          (fun w' hw' => hw') ws hws w hw, hlen⟩
  · intro c hc
    obtain ⟨i, hi, _, c0, _, hcc, _, h50⟩ := pagesAux_mem 1 pages c hc
    rw [hcc]
    exact h50

/-- Witness for C3 at chunk_size 10, overlap 5 and a 60-character page. -/
theorem C3_chunk_size_bound_witness :
    (∀ ws ∈ wordChunks "aaaaaaaaaaaa bb cc" 10 5,
      (mkChunk ws).content.length ≤ 10 ∨ ∃ w ∈ ws, 10 - 5 ≤ w.length) ∧
    (∀ c ∈ chunk_text "aaaaaaaaaaaa bb cc" 10 5,
      c.content.length ≤ 10 ∨
        ∃ w ∈ splitWords "aaaaaaaaaaaa bb cc", 10 - 5 ≤ w.length) ∧
    (∀ c ∈ chunk_text_by_pages
        ["aaaaaaaaaaaaaaaaaaaaaaaaaaaaaaaaaaaaaaaaaaaaaaaaaaaaaaaaaaaa"],
      50 ≤ c.content.length) :=
  C3_chunk_size_bound "aaaaaaaaaaaa bb cc" 10 5
    ["aaaaaaaaaaaaaaaaaaaaaaaaaaaaaaaaaaaaaaaaaaaaaaaaaaaaaaaaaaaa"]
    (by decide) (by decide)

/-- C4: a page with fewer than chunk_size (1500) characters yields at most one
chunk; the page's chunks are persisted exactly when the single chunk's content
has at least 50 characters (one chunk persisted) and dropped otherwise (zero
chunks); an all-whitespace page yields no chunks. -/
theorem C4_small_page (page : String) (h : page.length < 1500) :
    (chunk_text page 1500 200).length ≤ 1 ∧
    (∀ c ∈ chunk_text page 1500 200,
      chunk_text_by_pages [page] =
        if 50 ≤ c.content.length then [⟨c.content, 1, c.token_count⟩] else []) ∧
    (page.data.all pyIsSpace = true → chunk_text_by_pages [page] = []) := by
  have hle : sumLen1 ([] : List String) + sumLen1 (splitWords page) ≤ 1500 := by
    have hsw := splitWords_sum page
    simp only [sumLen1]
    omega
  have hs := chunkWordsAux_single 1500 200 (splitWords page) [] 0 rfl hle
  rw [List.nil_append] at hs
  refine ⟨?_, ?_, ?_⟩
  · unfold chunk_text wordChunks
    split
    · simp
    · rw [hs]
      split <;> simp
  · intro c hc
    unfold chunk_text at hc
    split at hc
    · exact absurd hc (by simp)
    · rename_i hne
      unfold wordChunks at hc
      rw [hs] at hc
      split at hc
      · exact absurd hc (by simp)
      · rename_i hwne
        have hceq : c = mkChunk (splitWords page) :=
          List.mem_singleton.mp (by simpa using hc)
        have hspace : ¬ page.data.all pyIsSpace = true := fun hsp =>
          hwne (splitWords_of_space page hsp)
        have hct : chunk_text page 1500 200 = [mkChunk (splitWords page)] := by
          unfold chunk_text wordChunks
          rw [if_neg hne, hs, if_neg hwne]
          rfl
        subst hceq
        unfold chunk_text_by_pages
        simp only [pagesAux, List.append_nil]
        rw [if_neg hspace, hct]
        by_cases h50 : 50 ≤ (mkChunk (splitWords page)).content.length
        · simp [List.filter_cons, h50]
        · simp [List.filter_cons, h50]
  · intro hsp
    unfold chunk_text_by_pages
    simp [pagesAux, hsp]

/-- Witness for C4 at a short page. -/
theorem C4_small_page_witness :
    ((chunk_text "hello world hello world hello world hello world hello" 1500
        200).length ≤ 1 ∧
      (∀ c ∈ chunk_text "hello world hello world hello world hello world hello"
          1500 200,
        chunk_text_by_pages
            ["hello world hello world hello world hello world hello"] =
          if 50 ≤ c.content.length then [⟨c.content, 1, c.token_count⟩]
          else []) ∧
      (("hello world hello world hello world hello world hello" :
          String).data.all pyIsSpace = true →
        chunk_text_by_pages
          ["hello world hello world hello world hello world hello"] = [])) :=
  C4_small_page "hello world hello world hello world hello world hello"
    (by decide)

/-- C5: the overlap seed of chunk i (its trailing whole words worth at most
`overlap` characters) is a suffix of chunk i's words and a prefix of chunk
i+1's words, so the trailing run reappears verbatim and no word is split;
every word of every chunk is a whole input word; chunking is page-local, each
persisted chunk carrying the 1-based index of its source page and a content
produced by chunking that page alone; `chunk_text` is the space-join of
`wordChunks`. -/
theorem C5_overlap (text : String) (chunk_size overlap : ℕ)
    (pages : List String) (i : ℕ) (c : PChunk)
    (hi : i + 1 < (wordChunks text chunk_size overlap).length)
    (hc : c ∈ chunk_text_by_pages pages) :
    chunk_text text chunk_size overlap =
      (wordChunks text chunk_size overlap).map mkChunk ∧
    ((overlapTail overlap ((wordChunks text chunk_size overlap).get
        ⟨i, Nat.lt_of_succ_lt hi⟩)) <:+
      ((wordChunks text chunk_size overlap).get ⟨i, Nat.lt_of_succ_lt hi⟩)) ∧
    sumLen1 (overlapTail overlap ((wordChunks text chunk_size overlap).get
        ⟨i, Nat.lt_of_succ_lt hi⟩)) ≤ overlap ∧
    ((overlapTail overlap ((wordChunks text chunk_size overlap).get
        ⟨i, Nat.lt_of_succ_lt hi⟩)) <+:
      ((wordChunks text chunk_size overlap).get ⟨i + 1, hi⟩)) ∧
    (∀ ws ∈ wordChunks text chunk_size overlap, ∀ w ∈ ws, w ∈ splitWords text) ∧
    ∃ j, ∃ hj : j < pages.length, c.page_number = j + 1 ∧
      ∃ c0 ∈ chunk_text (pages.get ⟨j, hj⟩) 1500 200, c.content = c0.content := by
  refine ⟨?_, overlapTail_isSfx overlap _, overlapTail_sum overlap _, ?_, ?_, ?_⟩
  · unfold chunk_text
    split
    · rename_i he
      subst he
      rfl
    · rfl
  · have hch := chunkWordsAux_chain chunk_size overlap (splitWords text) [] 0
    exact List.chain'_iff_get.mp hch i (by
      unfold wordChunks at hi
      omega)
  · intro ws hws w hw
    exact chunkWordsAux_subset chunk_size overlap (splitWords text)
      (splitWords text) [] 0 (by simp) (fun w' hw' => hw') ws hws w hw
  · obtain ⟨j, hj, hpn, c0, hc0, hcnt, _, _⟩ := pagesAux_mem 1 pages c hc
    exact ⟨j, hj, by omega, c0, hc0, hcnt⟩

/-- Witness for C5: four word-chunks of "aa bb cc dd" at chunk_size 5,
overlap 3, and a one-page document. -/
theorem C5_overlap_witness :
    chunk_text "aa bb cc dd" 5 3 = (wordChunks "aa bb cc dd" 5 3).map mkChunk ∧
    ((overlapTail 3 ((wordChunks "aa bb cc dd" 5 3).get
        ⟨0, Nat.lt_of_succ_lt (by decide)⟩)) <:+
      ((wordChunks "aa bb cc dd" 5 3).get ⟨0, Nat.lt_of_succ_lt (by decide)⟩)) ∧
    sumLen1 (overlapTail 3 ((wordChunks "aa bb cc dd" 5 3).get
        ⟨0, Nat.lt_of_succ_lt (by decide)⟩)) ≤ 3 ∧
    ((overlapTail 3 ((wordChunks "aa bb cc dd" 5 3).get
        ⟨0, Nat.lt_of_succ_lt (by decide)⟩)) <+:
      ((wordChunks "aa bb cc dd" 5 3).get ⟨0 + 1, by decide⟩)) ∧
    (∀ ws ∈ wordChunks "aa bb cc dd" 5 3, ∀ w ∈ ws, w ∈
      splitWords "aa bb cc dd") ∧
    ∃ j, ∃ hj : j <
        (["aaaaaaaaaaaaaaaaaaaaaaaaaaaaaaaaaaaaaaaaaaaaaaaaaaaaaaaaaaaa"] :
          List String).length,
      (⟨"aaaaaaaaaaaaaaaaaaaaaaaaaaaaaaaaaaaaaaaaaaaaaaaaaaaaaaaaaaaa", 1, 15⟩ :
        PChunk).page_number = j + 1 ∧
      ∃ c0 ∈ chunk_text
          ((["aaaaaaaaaaaaaaaaaaaaaaaaaaaaaaaaaaaaaaaaaaaaaaaaaaaaaaaaaaaa"] :
            List String).get ⟨j, hj⟩) 1500 200,
        (⟨"aaaaaaaaaaaaaaaaaaaaaaaaaaaaaaaaaaaaaaaaaaaaaaaaaaaaaaaaaaaa", 1,
          15⟩ : PChunk).content = c0.content :=
  C5_overlap "aa bb cc dd" 5 3
    ["aaaaaaaaaaaaaaaaaaaaaaaaaaaaaaaaaaaaaaaaaaaaaaaaaaaaaaaaaaaa"] 0
    ⟨"aaaaaaaaaaaaaaaaaaaaaaaaaaaaaaaaaaaaaaaaaaaaaaaaaaaaaaaaaaaa", 1, 15⟩
    (by decide) (by decide)

/-- C6: the scoring step computes cosine similarity as the dot product divided
by the product of the two norms; the norm product is never negative, the
similarity is defined as 0 whenever the norm product is 0, and the division is
only performed with a nonzero divisor. -/
theorem C6_cosine_guard (a b : List ℝ) :
    0 ≤ pyNorm a * pyNorm b ∧
    (pyNorm a * pyNorm b = 0 → cosineSim a b = 0) ∧
    (pyNorm a * pyNorm b ≠ 0 →
      cosineSim a b = dotProd a b / (pyNorm a * pyNorm b)) := by
  have hnn : 0 ≤ pyNorm a * pyNorm b :=
    mul_nonneg (Real.sqrt_nonneg _) (Real.sqrt_nonneg _)
  refine ⟨hnn, ?_, ?_⟩
  · intro h0
    unfold cosineSim
    have hng : ¬ pyNorm a * pyNorm b > 0 := by
      rw [h0]
      exact lt_irrefl 0
    rw [if_neg hng]
  · intro hne
    unfold cosineSim
    rw [if_pos (lt_of_le_of_ne hnn (Ne.symm hne))]

/-- Witness for C6: the all-zero vector has norm 0, and the similarity is 0
without any division. -/
theorem C6_cosine_guard_witness : cosineSim [(0 : ℝ)] [(0 : ℝ)] = 0 :=
  (C6_cosine_guard [0] [0]).2.1 (by simp [pyNorm, sumSq])

/-- C7: chunks with a missing embedding or an embedding of the wrong dimension
are excluded from scoring entirely — every retrieved chunk comes from a row
whose embedding is present and has the query's dimension — and excluded chunks
occupy no rank slot: the output is no longer than the number of rows with a
valid embedding. -/
theorem C7_exclusion (embedder : String → Option (List ℝ)) (query : String)
    (query_embedding : List ℝ) (rows : List Row) (top_k : ℕ)
    (hqe : embedder (expandQuery query) = some query_embedding) :
    (∀ s ∈ retrieve_relevant_chunks true embedder query rows top_k,
      ∃ r ∈ rows, ∃ e, r.embedding = some e ∧
        e.length = query_embedding.length ∧
        s = ⟨r.id, r.content, r.page_number, r.chunk_index,
             cosineSim e query_embedding⟩) ∧
    (retrieve_relevant_chunks true embedder query rows top_k).length ≤
      (rows.filter (validEmb query_embedding)).length := by
  cases query_embedding with
  | nil =>
    have hred : retrieve_relevant_chunks true embedder query rows top_k = [] := by
      unfold retrieve_relevant_chunks
      rw [hqe]
      rfl
    rw [hred]
    exact ⟨by simp, by simp⟩
  | cons x xs =>
    have hred : retrieve_relevant_chunks true embedder query rows top_k =
        rankChunks (x :: xs) rows top_k := by
      unfold retrieve_relevant_chunks
      rw [hqe]
      rfl
    rw [hred]
    constructor
    · intro s hs
      have hs1 : s ∈ sortDesc (rows.filterMap (scoreChunk (x :: xs))) :=
        (List.take_sublist top_k _).subset hs
      have hs2 := (sortDesc_perm _).mem_iff.mp hs1
      obtain ⟨r, hr, hsc⟩ := List.mem_filterMap.mp hs2
      obtain ⟨e, hre, hlen, hseq⟩ := scoreChunk_eq_some _ r s hsc
      exact ⟨r, hr, e, hre, hlen, hseq⟩
    · have h1 : (rankChunks (x :: xs) rows top_k).length ≤
          (sortDesc (rows.filterMap (scoreChunk (x :: xs)))).length := by
        unfold rankChunks
        rw [List.length_take]
        exact min_le_right _ _
      have h2 := (sortDesc_perm (rows.filterMap (scoreChunk (x :: xs)))).length_eq
      have h3 := length_filterMap_eq_filter (scoreChunk (x :: xs))
        (validEmb (x :: xs)) (scoreChunk_isSome (x :: xs)) rows
      omega

/-- Witness for C7: one row with a missing embedding, one with a valid one. -/
theorem C7_exclusion_witness :
    (∀ s ∈ retrieve_relevant_chunks true (fun _ => some [(1 : ℝ)]) "q"
        [⟨"a", "c1", some 1, 0, none⟩, ⟨"b", "c2", some 2, 1, some [(1 : ℝ)]⟩] 5,
      ∃ r ∈ ([⟨"a", "c1", some 1, 0, none⟩,
              ⟨"b", "c2", some 2, 1, some [(1 : ℝ)]⟩] : List Row),
        ∃ e, r.embedding = some e ∧ e.length = ([(1 : ℝ)] : List ℝ).length ∧
          s = ⟨r.id, r.content, r.page_number, r.chunk_index,
               cosineSim e [(1 : ℝ)]⟩) ∧
    (retrieve_relevant_chunks true (fun _ => some [(1 : ℝ)]) "q"
        [⟨"a", "c1", some 1, 0, none⟩,
         ⟨"b", "c2", some 2, 1, some [(1 : ℝ)]⟩] 5).length ≤
      (([⟨"a", "c1", some 1, 0, none⟩,
         ⟨"b", "c2", some 2, 1, some [(1 : ℝ)]⟩] : List Row).filter
        (validEmb [(1 : ℝ)])).length :=
  C7_exclusion (fun _ => some [(1 : ℝ)]) "q" [(1 : ℝ)]
    [⟨"a", "c1", some 1, 0, none⟩, ⟨"b", "c2", some 2, 1, some [(1 : ℝ)]⟩] 5 rfl

/-- C8: if the clients are not configured, or the query-embedding call returns
no vector (None, or the falsy empty list), retrieval returns the empty
sequence.  The model is a total function returning a list, so absence of
results is a representable outcome and no exception reaches the caller. -/
theorem C8_degrade (embedder : String → Option (List ℝ)) (query : String)
    (rows : List Row) (top_k : ℕ) :
    retrieve_relevant_chunks false embedder query rows top_k = [] ∧
    (embedder (expandQuery query) = none →
      retrieve_relevant_chunks true embedder query rows top_k = []) ∧
    (embedder (expandQuery query) = some [] →
      retrieve_relevant_chunks true embedder query rows top_k = []) := by
  refine ⟨rfl, ?_, ?_⟩
  · intro h
    unfold retrieve_relevant_chunks
    rw [h]
    rfl
  · intro h
    unfold retrieve_relevant_chunks
    rw [h]
    rfl

/-- Witness for C8: an embedder that never returns a vector. -/
theorem C8_degrade_witness :
    retrieve_relevant_chunks true (fun _ => none) "q"
      [⟨"a", "c1", some 1, 0, some [(1 : ℝ)]⟩] 5 = [] :=
  (C8_degrade (fun _ => none) "q"
    [⟨"a", "c1", some 1, 0, some [(1 : ℝ)]⟩] 5).2.1 rfl

/-- C9 counterexample: a retrieved chunk with page number 0 — which has a page
number — is labelled "Document", not "Page 0" (Python truthiness of 0 in the
source's label expression), and the citation identifier is the string
"cite-1", not the bare 1-based position. -/
theorem C9_label_counterexample :
    (buildCitations [⟨"x", "text", some 0, 0, (0 : ℝ)⟩]).map
        (fun c => (c.id, c.label)) = [("cite-1", "Document")] ∧
    (("cite-1", "Document") : String × String) ≠ ("1", "Page 0") :=
  ⟨rfl, by decide⟩

/-- C9 (amended): the composer produces exactly one citation per retrieved
chunk, in rank order; the identifier is the string "cite-" followed by the
1-based sequence position; the label is "Page N" for a NONZERO page number N
and "Document" otherwise (no page number, or page number 0); the excerpt is
the chunk content when at most 300 characters, else the first 300 characters
suffixed with an ellipsis. -/
theorem C9_citations (chunks : List Scored) :
    (buildCitations chunks).length = chunks.length ∧
    (∀ i (hi : i < chunks.length),
      (buildCitations chunks).get? i = some
        ⟨"cite-" ++ toString (i + 1),
         pageLabel (chunks.get ⟨i, hi⟩).page_number,
         excerptOf (chunks.get ⟨i, hi⟩).content⟩) ∧
    (∀ p : Option ℕ,
      ((p = none ∨ p = some 0) → pageLabel p = "Document") ∧
      (∀ n, p = some n → n ≠ 0 → pageLabel p = "Page " ++ toString n)) ∧
    (∀ content : String,
      (content.length ≤ 300 → excerptOf content = content) ∧
      (300 < content.length →
        excerptOf content = content.take 300 ++ "...")) := by
  refine ⟨citationsAux_length 0 chunks, ?_, ?_, ?_⟩
  · intro i hi
    simpa using citationsAux_get chunks 0 i hi
  · intro p
    constructor
    · intro hp
      rcases hp with h | h <;> subst h <;> rfl
    · intro n hpn hn
      subst hpn
      simp only [pageLabel]
      rw [if_neg hn]
  · intro content
    constructor
    · intro hle
      unfold excerptOf
      rw [if_neg (by omega)]
    · intro hlt
      unfold excerptOf
      rw [if_pos hlt]

/-- Witness for C9 at a one-chunk list with page number 2. -/
theorem C9_citations_witness :
    (buildCitations [(⟨"x", "t", some 2, 0, (0 : ℝ)⟩ : Scored)]).get? 0 = some
      ⟨"cite-" ++ toString (0 + 1), pageLabel (some 2), excerptOf "t"⟩ :=
  (C9_citations [⟨"x", "t", some 2, 0, (0 : ℝ)⟩]).2.1 0 (by decide)

/-- C10: every chunk record persisted during ingestion carries an embedding of
exactly 1536 floats, obtained from the embedding call on the chunk's content;
chunks whose call returns no vector (or a wrong-length vector) are skipped and
counted as failures while ingestion of the remaining chunks continues:
records + failures = chunks. -/
theorem C10_ingest_dimension (doc_id : String)
    (embedder : String → Option (List ℝ)) (chunks : List PChunk) :
    (∀ rec ∈ (buildChunkRecords doc_id embedder 0 chunks).1,
      rec.embedding.length = 1536 ∧ ∃ c ∈ chunks, rec.content = c.content ∧
        embedder c.content = some rec.embedding) ∧
    (buildChunkRecords doc_id embedder 0 chunks).1.length +
      (buildChunkRecords doc_id embedder 0 chunks).2 = chunks.length :=
  buildChunkRecords_spec doc_id embedder 0 chunks

set_option maxRecDepth 100000 in
/-- Witness for C10: one chunk whose embedding call fails, one that returns a
1536-vector; the failure is counted, the valid record carries 1536 floats. -/
theorem C10_ingest_dimension_witness :
    (⟨"d", 1, "good", some 1, List.replicate 1536 (1 : ℝ), 2⟩ :
      ChunkRecord).embedding.length = 1536 ∧
    (buildChunkRecords "d"
        (fun s => if s = "good" then some (List.replicate 1536 (1 : ℝ)) else none)
        0 [⟨"bad", 1, 2⟩, ⟨"good", 1, 2⟩]).1.length +
      (buildChunkRecords "d"
        (fun s => if s = "good" then some (List.replicate 1536 (1 : ℝ)) else none)
        0 [⟨"bad", 1, 2⟩, ⟨"good", 1, 2⟩]).2 = 2 :=
  ⟨((C10_ingest_dimension "d"
      (fun s => if s = "good" then some (List.replicate 1536 (1 : ℝ)) else none)
      [⟨"bad", 1, 2⟩, ⟨"good", 1, 2⟩]).1
      ⟨"d", 1, "good", some 1, List.replicate 1536 (1 : ℝ), 2⟩
      (by
        show _ ∈ ([⟨"d", 1, "good", some 1, List.replicate 1536 (1 : ℝ), 2⟩] :
          List ChunkRecord)
        exact List.mem_singleton.mpr rfl)).1,
   (C10_ingest_dimension "d"
      (fun s => if s = "good" then some (List.replicate 1536 (1 : ℝ)) else none)
      [⟨"bad", 1, 2⟩, ⟨"good", 1, 2⟩]).2⟩

end FinSight
